import Mathlib

/-!
Formal model of the record-extraction generators in
`impresso_commons/utils/s3.py`: `read_jsonlines` (called `extract_records`
in the specification) and `readtext_jsonlines` (`extract_projected_records`).

The Python generators retrieve a byte blob from S3, decompress it with
`bz2.decompress`, decode the bytes as UTF-8, split the text on `'\n'`, and
yield lines.  `readtext_jsonlines` additionally parses each non-empty line
with `json.loads`, reads the record's `"ft"` field, skips records whose
`"ft"` has length zero, projects the record onto a fixed key allow-list and
yields `json.dumps` of the projection.

The model embeds the text-level behaviour exactly; the S3 transport and the
`bz2`/UTF-8 stages (library code, not part of this repository) are modelled
abstractly by `S3Blob`/`decompressDecode`.  Python's `json` module is
modelled by an executable parser (`json_loads`) and serializer
(`json_dumps`); JSON numbers are modelled as integers (none of the verified
properties depend on floating-point literals, which the model's parser
rejects), and in objects a later duplicate key overwrites the value at the
first occurrence's position, as in a Python dict built by insertion.

A generator that may raise is modelled as the pair of the list of values it
yielded before returning or raising, and the exception it raised, if any.
-/

namespace ImpressoS3

/-- Exceptions that the modelled code paths can raise. -/
inductive PyErr where
  /-- raised by bz2.decompress on a byte blob that is not a valid bz2 stream -/
  | decompressionError
  /-- raised by bytes.decode for bytes that are not valid UTF-8 -/
  | decodeError
  /-- raised by json.loads on a line that is not valid JSON -/
  | jsonDecodeError
  /-- raised by dict subscript when the key is missing -/
  | keyError
  /-- raised by subscripting a non-dict with a string, or len() of a sizeless value -/
  | typeError
deriving Repr, DecidableEq

/-- A JSON value, as produced by Python's json.loads (numbers as integers). -/
inductive Json where
  | null
  | bool (b : Bool)
  | num (n : Int)
  | str (s : String)
  | arr (elems : List Json)
  | obj (members : List (String × Json))
deriving Repr, Inhabited

/-- Ordered association-list lookup, first occurrence; object member lists
built by the parser have unique keys, so this is Python dict lookup. -/
def lookupKey : List (String × Json) → String → Option Json
  | [], _ => none
  | (k, v) :: ms, key => if k = key then some v else lookupKey ms key

/-- Remove every member with the given key. -/
def removeKey : List (String × Json) → String → List (String × Json)
  | [], _ => []
  | (k, v) :: ms, key => if k = key then removeKey ms key else (k, v) :: removeKey ms key

/-- Dict insertion at the front of the remaining members: when the key
reappears later, the later value wins but the earlier position is kept,
matching how a Python dict collapses duplicate keys in document order. -/
def insertMember (key : String) (v : Json) (ms : List (String × Json)) :
    List (String × Json) :=
  match lookupKey ms key with
  | some v2 => (key, v2) :: removeKey ms key
  | none => (key, v) :: ms

/-- Python subscript value[key] for a string key: dict lookup, KeyError when
the key is absent, TypeError when the value is not a dict. -/
def pySubscript : Json → String → Except PyErr Json
  | .obj ms, key =>
    match lookupKey ms key with
    | some v => .ok v
    | none => .error .keyError
  | _, _ => .error .typeError

/-- Python len(): defined for strings, lists and dicts, TypeError otherwise. -/
def pyLen : Json → Except PyErr Nat
  | .str s => .ok s.length
  | .arr es => .ok es.length
  | .obj ms => .ok ms.length
  | _ => .error .typeError

/-! ## The serializer, modelling json.dumps with its default separators -/

/-- Lowercase hexadecimal digit character for n < 16. -/
def hexDigit (n : Nat) : Char :=
  if n < 10 then Char.ofNat (48 + n) else Char.ofNat (87 + n)

/-- Decimal digit characters of n, most significant first, in front of acc.
Fuel-based so that the definition is structural and kernel-reducible; the
wrapper passes enough fuel for any n. -/
def natCharsAux : Nat → Nat → List Char → List Char
  | 0, _, acc => acc
  | fuel + 1, n, acc =>
    if n < 10 then Char.ofNat (48 + n) :: acc
    else natCharsAux fuel (n / 10) (Char.ofNat (48 + n % 10) :: acc)

/-- Decimal digit characters of n, most significant first. -/
def natChars (n : Nat) : List Char := natCharsAux (n + 1) n []

/-- Decimal rendering of an integer: optional minus sign, then digits. -/
def intChars (n : Int) : List Char :=
  (if n < 0 then ['-'] else []) ++ natChars n.natAbs

/-- JSON escaping of one character.  Double quote, backslash and the common
control characters get two-character escapes, the remaining control
characters get a \u00XX escape; all other characters stand for themselves
(the ASCII-only escaping of json.dumps does not matter for any claim and is
not modelled). -/
def escapeChar (c : Char) : List Char :=
  if c = '"' then ['\\', '"']
  else if c = '\\' then ['\\', '\\']
  else if c = '\n' then ['\\', 'n']
  else if c = '\t' then ['\\', 't']
  else if c = '\r' then ['\\', 'r']
  else if c = Char.ofNat 8 then ['\\', 'b']
  else if c = Char.ofNat 12 then ['\\', 'f']
  else if c.toNat < 32 then ['\\', 'u', '0', '0', hexDigit (c.toNat / 16), hexDigit (c.toNat % 16)]
  else [c]

/-- JSON escaping of a character sequence. -/
def escapeStr : List Char → List Char
  | [] => []
  | c :: cs => escapeChar c ++ escapeStr cs

mutual
/-- Characters of json.dumps of a value (default separators: a comma and a
space between items, a colon and a space after a key). -/
def dumpsVal : Json → List Char
  | .null => "null".data
  | .bool true => "true".data
  | .bool false => "false".data
  | .num n => intChars n
  | .str s => '"' :: escapeStr s.data ++ ['"']
  | .arr es => '[' :: dumpsElems es ++ [']']
  | .obj ms => '{' :: dumpsMembers ms ++ ['}']

/-- Characters of the comma-separated renderings of the array elements. -/
def dumpsElems : List Json → List Char
  | [] => []
  | [e] => dumpsVal e
  | e :: e2 :: es => dumpsVal e ++ ',' :: ' ' :: dumpsElems (e2 :: es)

/-- Characters of the comma-separated key-value renderings of the members. -/
def dumpsMembers : List (String × Json) → List Char
  | [] => []
  | [(k, v)] => '"' :: escapeStr k.data ++ '"' :: ':' :: ' ' :: dumpsVal v
  | (k, v) :: m :: ms =>
    '"' :: escapeStr k.data ++ '"' :: ':' :: ' ' :: dumpsVal v ++ ',' :: ' ' :: dumpsMembers (m :: ms)
end

/-- Model of json.dumps. -/
def json_dumps (j : Json) : String := String.mk (dumpsVal j)

/-! ## The parser, modelling json.loads -/

/-- JSON insignificant whitespace. -/
def isWsChar (c : Char) : Bool := c = ' ' || c = '\t' || c = '\n' || c = '\r'

/-- Drop leading whitespace. -/
def skipWs : List Char → List Char
  | [] => []
  | c :: cs => if isWsChar c then skipWs cs else c :: cs

/-- Decimal digit test. -/
def isDigitChar (c : Char) : Bool := '0' ≤ c && c ≤ '9'

/-- Split off the longest leading run of decimal digits. -/
def takeDigits : List Char → List Char × List Char
  | [] => ([], [])
  | c :: cs =>
    if isDigitChar c then
      let (ds, r) := takeDigits cs
      (c :: ds, r)
    else ([], c :: cs)

/-- Numeric value of a digit run, most significant first. -/
def digitsToNat (ds : List Char) : Nat :=
  ds.foldl (fun a c => a * 10 + (c.toNat - 48)) 0

/-- Parse an integer literal: an optional minus sign and a nonempty digit
run.  (JSON fractions and exponents are not modelled; a document using them
does not parse in this model.) -/
def parseNum : List Char → Option (Int × List Char)
  | [] => none
  | c :: r =>
    if c = '-' then
      match takeDigits r with
      | ([], _) => none
      | (ds, r2) => some (-(digitsToNat ds : Int), r2)
    else
      match takeDigits (c :: r) with
      | ([], _) => none
      | (ds, r2) => some ((digitsToNat ds : Int), r2)

/-- Value of a hexadecimal digit character. -/
def hexToNat (c : Char) : Option Nat :=
  if '0' ≤ c && c ≤ '9' then some (c.toNat - 48)
  else if 'a' ≤ c && c ≤ 'f' then some (c.toNat - 87)
  else if 'A' ≤ c && c ≤ 'F' then some (c.toNat - 55)
  else none

/-- Character denoted by a single-character escape. -/
def unescapeChar : Char → Option Char
  | 'n' => some '\n'
  | 't' => some '\t'
  | 'r' => some '\r'
  | 'b' => some (Char.ofNat 8)
  | 'f' => some (Char.ofNat 12)
  | '"' => some '"'
  | '\\' => some '\\'
  | '/' => some '/'
  | _ => none

/-- Parse the body of a string literal after the opening quote, accumulating
the decoded characters in reverse. -/
def parseStrBody (acc : List Char) : List Char → Option (String × List Char)
  | [] => none
  | c :: rest =>
    if c = '"' then some (String.mk acc.reverse, rest)
    else if c = '\\' then
      match rest with
      | [] => none
      | e :: rest2 =>
        if e = 'u' then
          match rest2 with
          | h1 :: h2 :: h3 :: h4 :: rest3 =>
            match hexToNat h1, hexToNat h2, hexToNat h3, hexToNat h4 with
            | some a, some b, some c2, some d =>
              parseStrBody (Char.ofNat (((a * 16 + b) * 16 + c2) * 16 + d) :: acc) rest3
            | _, _, _, _ => none
          | _ => none
        else
          match unescapeChar e with
          | some c2 => parseStrBody (c2 :: acc) rest2
          | none => none
    else parseStrBody (c :: acc) rest

mutual
/-- Parse one JSON value after optional whitespace.  Structural on the fuel;
json_loads supplies fuel exceeding the input length, which is enough because
every recursive call follows the consumption of at least one character. -/
def parseVal : Nat → List Char → Option (Json × List Char)
  | 0, _ => none
  | fuel + 1, cs =>
    match skipWs cs with
    | 'n' :: 'u' :: 'l' :: 'l' :: r => some (.null, r)
    | 't' :: 'r' :: 'u' :: 'e' :: r => some (.bool true, r)
    | 'f' :: 'a' :: 'l' :: 's' :: 'e' :: r => some (.bool false, r)
    | '"' :: r =>
      match parseStrBody [] r with
      | some (s, r2) => some (.str s, r2)
      | none => none
    | '[' :: r =>
      match skipWs r with
      | [] => none
      | c :: r2 =>
        if c = ']' then some (.arr [], r2)
        else
          match parseElems fuel (c :: r2) with
          | some (es, r3) => some (.arr es, r3)
          | none => none
    | '{' :: r =>
      match skipWs r with
      | [] => none
      | c :: r2 =>
        if c = '}' then some (.obj [], r2)
        else
          match parseMembers fuel (c :: r2) with
          | some (ms, r3) => some (.obj ms, r3)
          | none => none
    | c :: r =>
      if c == '-' || isDigitChar c then
        match parseNum (c :: r) with
        | some (n, r2) => some (.num n, r2)
        | none => none
      else none
    | [] => none

/-- Parse one or more comma-separated array elements and the closing
bracket (the empty array is handled in parseVal). -/
def parseElems : Nat → List Char → Option (List Json × List Char)
  | 0, _ => none
  | fuel + 1, cs =>
    match parseVal fuel cs with
    | none => none
    | some (v, r) =>
      match skipWs r with
      | ',' :: r2 =>
        match parseElems fuel (skipWs r2) with
        | some (vs, r3) => some (v :: vs, r3)
        | none => none
      | ']' :: r2 => some ([v], r2)
      | _ => none

/-- Parse one or more comma-separated object members and the closing brace
(the empty object is handled in parseVal); duplicate keys collapse as in a
Python dict. -/
def parseMembers : Nat → List Char → Option (List (String × Json) × List Char)
  | 0, _ => none
  | fuel + 1, cs =>
    match skipWs cs with
    | '"' :: r =>
      match parseStrBody [] r with
      | none => none
      | some (key, r1) =>
        match skipWs r1 with
        | ':' :: r2 =>
          match parseVal fuel (skipWs r2) with
          | none => none
          | some (v, r3) =>
            match skipWs r3 with
            | ',' :: r4 =>
              match parseMembers fuel (skipWs r4) with
              | some (ms, r5) => some (insertMember key v ms, r5)
              | none => none
            | '}' :: r4 => some ([(key, v)], r4)
            | _ => none
        | _ => none
    | _ => none
end

/-- Model of json.loads: parse one value and require that only whitespace
remains. -/
def json_loads (s : String) : Option Json :=
  match parseVal (s.data.length + 1) s.data with
  | some (j, r) => if skipWs r = [] then some j else none
  | none => none

/-! ## The two generators of impresso_commons/utils/s3.py -/

/-- Characters of a text split at every newline, keeping empty chunks,
exactly as Python text.split over a one-character separator. -/
def splitNl : List Char → List (List Char)
  | [] => [[]]
  | c :: cs =>
    match splitNl cs with
    | [] => [[]]
    | l :: ls => if c = '\n' then [] :: l :: ls else (c :: l) :: ls

/-- Model of text.split of the decompressed text on a newline. -/
def pySplitLines (text : String) : List String := (splitNl text.data).map String.mk

/-- The retrieved S3 byte blob, abstracted to what decides the modelled
behaviour: either a valid bz2 stream whose decompressed bytes decode to the
given text, or an invalid stream, or a valid stream of non-UTF-8 bytes. -/
inductive S3Blob where
  | valid (text : String)
  | notBz2
  | notUtf8

/-- Modelled from the spec: the stage bz2.decompress(data).decode, where
bz2.decompress and bytes.decode are library calls whose code is not in this
repository.  Decompression of a blob that is not validly compressed raises
a decompression error, decoding of non-UTF-8 bytes raises a decode error,
and otherwise the decompressed text is returned. -/
def decompressDecode : S3Blob → Except PyErr String
  | .valid text => .ok text
  | .notBz2 => .error .decompressionError
  | .notUtf8 => .error .decodeError

/-- The line loop of read_jsonlines: yield every line that is not the empty
string. -/
def read_jsonlines_gen : List String → List String
  | [] => []
  | line :: rest =>
    if line ≠ "" then line :: read_jsonlines_gen rest
    else read_jsonlines_gen rest

/-- Model of read_jsonlines (the spec's extract_records): the values the
generator yields, and the exception that interrupted it, if any. -/
def read_jsonlines (blob : S3Blob) : List String × Option PyErr :=
  match decompressDecode blob with
  | .error e => ([], some e)
  | .ok text => (read_jsonlines_gen (pySplitLines text), none)

/-- Whether a key survives the projection of readtext_jsonlines, from the
chain of comparisons in its dict comprehension. -/
def keepKey (k : String) : Bool :=
  k = "id" || k = "s3v" || k = "ts" || k = "ft" || k = "tp" || k = "pp" || k = "lg" || k = "t"

/-- The dict comprehension of readtext_jsonlines: the members whose key is
in the allow-list, in record order.  On the parser's output, whose member
keys are unique, iterating the keys and looking each one up is the same as
filtering the member list. -/
def reduceRecord (ms : List (String × Json)) : List (String × Json) :=
  ms.filter (fun kv => keepKey kv.1)

/-- The projection applied to a parsed record. -/
def reduceJson : Json → Json
  | .obj ms => .obj (reduceRecord ms)
  | j => j

/-- The body of the loop of readtext_jsonlines for one non-empty line:
parse it, subscript the record with "ft", test len of the result, and
either yield the serialized projection or yield nothing. -/
def process_line (line : String) : Except PyErr (Option String) :=
  match json_loads line with
  | none => .error .jsonDecodeError
  | some article_json =>
    match pySubscript article_json "ft" with
    | .error e => .error e
    | .ok ftVal =>
      match pyLen ftVal with
      | .error e => .error e
      | .ok n =>
        if n ≠ 0 then .ok (some (json_dumps (reduceJson article_json)))
        else .ok none

/-- The line loop of readtext_jsonlines: process the non-empty lines in
order, collecting the yielded strings until a line raises. -/
def readtext_jsonlines_gen : List String → List String × Option PyErr
  | [] => ([], none)
  | line :: rest =>
    if line ≠ "" then
      match process_line line with
      | .error e => ([], some e)
      | .ok none => readtext_jsonlines_gen rest
      | .ok (some out) =>
        let res := readtext_jsonlines_gen rest
        (out :: res.1, res.2)
    else readtext_jsonlines_gen rest

/-- Model of readtext_jsonlines (the spec's extract_projected_records). -/
def readtext_jsonlines (blob : S3Blob) : List String × Option PyErr :=
  match decompressDecode blob with
  | .error e => ([], some e)
  | .ok text => readtext_jsonlines_gen (pySplitLines text)

/-- The non-empty lines of a text, used to state the claims. -/
def nonEmptyLines (text : String) : List String :=
  (pySplitLines text).filter (fun l => l ≠ "")

/-- The key allow-list named by the specification. -/
def allowList : List String := ["id", "s3v", "ts", "ft", "tp", "pp", "lg", "t"]

/-- The loop of readtext_jsonlines restricted to lines already known to be
non-empty; used to state and prove the claims about the projected output. -/
def processLines : List String → List String × Option PyErr
  | [] => ([], none)
  | line :: rest =>
    match process_line line with
    | .error e => ([], some e)
    | .ok none => processLines rest
    | .ok (some out) =>
      let res := processLines rest
      (out :: res.1, res.2)

/-- The strings contributed by a list of lines that all process without
raising. -/
def collectOk (ls : List String) : List String :=
  ls.filterMap fun l =>
    match process_line l with
    | .ok r => r
    | .error _ => none

/-! ## Lemmas about the generator loops -/

theorem mk_data (s : String) : String.mk s.data = s := by
  cases s
  rfl

theorem read_jsonlines_gen_eq_filter (ls : List String) :
    read_jsonlines_gen ls = ls.filter (fun l => l ≠ "") := by
  induction ls with
  | nil => rfl
  | cons line rest ih =>
    by_cases h : line = "" <;> simp [read_jsonlines_gen, List.filter, h, ih]

theorem readtext_gen_eq_processLines (ls : List String) :
    readtext_jsonlines_gen ls = processLines (ls.filter (fun l => l ≠ "")) := by
  induction ls with
  | nil => rfl
  | cons line rest ih =>
    by_cases h : line = ""
    · simp [readtext_jsonlines_gen, h, ih]
    · rw [readtext_jsonlines_gen, if_pos h, ih,
        List.filter_cons_of_pos (by simpa using h), processLines]

theorem readtext_jsonlines_valid (text : String) :
    readtext_jsonlines (.valid text) = processLines (nonEmptyLines text) := by
  simp [readtext_jsonlines, decompressDecode, readtext_gen_eq_processLines, nonEmptyLines]

theorem processLines_all_ok (ls : List String)
    (h : ∀ l ∈ ls, ∃ r, process_line l = .ok r) :
    processLines ls = (collectOk ls, none) := by
  induction ls with
  | nil => rfl
  | cons line rest ih =>
    obtain ⟨r, hr⟩ := h line (List.mem_cons_self ..)
    have hrest := ih fun l hl => h l (List.mem_cons_of_mem _ hl)
    cases r with
    | none => simp [processLines, collectOk, hr, hrest, List.filterMap_cons]
    | some out => simp [processLines, collectOk, hr, hrest, List.filterMap_cons]

theorem processLines_append_ok (pre rest : List String)
    (h : ∀ l ∈ pre, ∃ r, process_line l = .ok r) :
    processLines (pre ++ rest)
      = (collectOk pre ++ (processLines rest).1, (processLines rest).2) := by
  induction pre with
  | nil => simp [collectOk]
  | cons line pre2 ih =>
    obtain ⟨r, hr⟩ := h line (List.mem_cons_self ..)
    have ih2 := ih fun l hl => h l (List.mem_cons_of_mem _ hl)
    cases r with
    | none => simp [processLines, collectOk, hr, List.filterMap_cons, ih2]
    | some out => simp [processLines, collectOk, hr, List.filterMap_cons, ih2]

theorem mem_processLines (ls : List String) (out : String)
    (h : out ∈ (processLines ls).1) :
    ∃ line ∈ ls, process_line line = .ok (some out) := by
  induction ls with
  | nil => simp [processLines] at h
  | cons line rest ih =>
    rw [processLines] at h
    match hl : process_line line with
    | .error e => rw [hl] at h; simp at h
    | .ok none =>
      rw [hl] at h
      obtain ⟨l, hmem, hok⟩ := ih h
      exact ⟨l, List.mem_cons_of_mem _ hmem, hok⟩
    | .ok (some o) =>
      rw [hl] at h
      simp only [List.mem_cons] at h
      rcases h with rfl | h
      · exact ⟨line, List.mem_cons_self .., hl⟩
      · obtain ⟨l, hmem, hok⟩ := ih h
        exact ⟨l, List.mem_cons_of_mem _ hmem, hok⟩

theorem pySubscript_ok {j : Json} {key : String} {v : Json}
    (h : pySubscript j key = .ok v) :
    ∃ ms, j = .obj ms ∧ lookupKey ms key = some v := by
  cases j with
  | obj ms =>
    refine ⟨ms, rfl, ?_⟩
    rw [pySubscript] at h
    match hk : lookupKey ms key with
    | some v2 => rw [hk] at h; cases h; rfl
    | none => rw [hk] at h; cases h
  | null => cases h
  | bool b => cases h
  | num n => cases h
  | str s => cases h
  | arr es => cases h

theorem process_line_ok_some {line out : String}
    (h : process_line line = .ok (some out)) :
    ∃ ms v n, json_loads line = some (.obj ms) ∧ lookupKey ms "ft" = some v
      ∧ pyLen v = .ok n ∧ n ≠ 0
      ∧ out = json_dumps (.obj (reduceRecord ms)) := by
  rw [process_line] at h
  match hj : json_loads line with
  | none => rw [hj] at h; cases h
  | some j =>
    simp only [hj] at h
    match hs : pySubscript j "ft" with
    | .error e => simp only [hs] at h; cases h
    | .ok ftVal =>
      simp only [hs] at h
      match hn : pyLen ftVal with
      | .error e => simp only [hn] at h; cases h
      | .ok n =>
        simp only [hn] at h
        by_cases hz : n = 0
        · rw [if_neg (by simpa using hz)] at h; cases h
        · rw [if_pos hz] at h
          obtain ⟨ms, rfl, hk⟩ := pySubscript_ok hs
          cases h
          exact ⟨ms, ftVal, n, rfl, hk, hn, hz, by rw [reduceJson]⟩

/-! ## Lemmas about the newline split -/

theorem splitNl_ne_nil (cs : List Char) : splitNl cs ≠ [] := by
  cases cs with
  | nil => simp [splitNl]
  | cons c cs2 =>
    rw [splitNl]
    match h : splitNl cs2 with
    | [] => simp
    | l :: ls => by_cases hc : c = '\n' <;> simp [hc]

theorem mem_splitNl_no_newline (cs : List Char) :
    ∀ l ∈ splitNl cs, '\n' ∉ l := by
  induction cs with
  | nil => intro l hl; simp [splitNl] at hl; simp [hl]
  | cons c cs2 ih =>
    intro l hl
    match h : splitNl cs2 with
    | [] => exact absurd h (splitNl_ne_nil cs2)
    | l0 :: ls =>
      simp only [splitNl, h] at hl
      by_cases hc : c = '\n'
      · rw [if_pos hc] at hl
        rcases List.mem_cons.mp hl with rfl | hl2
        · simp
        · exact ih l (h ▸ hl2)
      · rw [if_neg hc] at hl
        rcases List.mem_cons.mp hl with rfl | hl2
        · intro hmem
          rcases List.mem_cons.mp hmem with heq | hmem2
          · exact hc heq.symm
          · exact ih l0 (h ▸ List.mem_cons_self ..) hmem2
        · exact ih l (h ▸ List.mem_cons_of_mem _ hl2)

theorem read_jsonlines_valid (text : String) :
    read_jsonlines (.valid text) = (nonEmptyLines text, none) := by
  simp [read_jsonlines, decompressDecode, read_jsonlines_gen_eq_filter, nonEmptyLines]

theorem str_length_eq_zero (s : String) : s.length = 0 ↔ s = "" := by
  constructor
  · intro h
    cases s with
    | mk data =>
      cases data with
      | nil => rfl
      | cons c cs => simp [String.length] at h
  · intro h
    simp [h]

/-- The projection of one line as the specification describes it: a line
whose parsed record has a non-empty string under "ft" contributes the
serialized allow-listed projection; every other line contributes nothing. -/
def specProjectLine (line : String) : Option String :=
  match json_loads line with
  | some (.obj ms) =>
    match lookupKey ms "ft" with
    | some (.str s) => if s ≠ "" then some (json_dumps (.obj (reduceRecord ms))) else none
    | _ => none
  | _ => none

theorem process_line_of_str_ft {line : String} {ms : List (String × Json)} {s : String}
    (hp : json_loads line = some (.obj ms)) (hk : lookupKey ms "ft" = some (.str s)) :
    process_line line
      = if s ≠ "" then .ok (some (json_dumps (.obj (reduceRecord ms)))) else .ok none := by
  rw [process_line, hp]
  simp only [pySubscript, hk, pyLen, reduceJson]
  by_cases hz : s = ""
  · rw [if_neg (by simp [hz, str_length_eq_zero]), if_neg (by simp [hz])]
  · rw [if_pos (by simpa [str_length_eq_zero] using hz), if_pos hz]

theorem processLines_spec (ls : List String)
    (h : ∀ line ∈ ls, ∃ ms s, json_loads line = some (.obj ms)
          ∧ lookupKey ms "ft" = some (.str s)) :
    processLines ls = (ls.filterMap specProjectLine, none) := by
  induction ls with
  | nil => rfl
  | cons line rest ih =>
    obtain ⟨ms, s, hp, hk⟩ := h line (List.mem_cons_self ..)
    have ih2 := ih fun l hl => h l (List.mem_cons_of_mem _ hl)
    have hpl := process_line_of_str_ft hp hk
    have hspec : specProjectLine line
        = if s ≠ "" then some (json_dumps (.obj (reduceRecord ms))) else none := by
      simp only [specProjectLine, hp, hk]
    by_cases hz : s = ""
    · rw [if_neg (by simpa using hz)] at hpl hspec
      simp [processLines, hpl, ih2, List.filterMap_cons, hspec]
    · rw [if_pos hz] at hpl hspec
      simp [processLines, hpl, ih2, List.filterMap_cons, hspec]

/-! ## Round-trip of the decimal rendering -/

theorem natCharsAux_acc (fuel : Nat) : ∀ (n : Nat) (acc : List Char),
    natCharsAux fuel n acc = natCharsAux fuel n [] ++ acc := by
  induction fuel with
  | zero => intro n acc; rfl
  | succ f ih =>
    intro n acc
    by_cases h : n < 10
    · simp [natCharsAux, h]
    · rw [natCharsAux, if_neg h, natCharsAux, if_neg h,
        ih (n / 10) (Char.ofNat (48 + n % 10) :: acc), ih (n / 10) [Char.ofNat (48 + n % 10)]]
      simp

theorem natCharsAux_fuel (f1 : Nat) : ∀ (f2 n : Nat) (acc : List Char),
    n < f1 → n < f2 → natCharsAux f1 n acc = natCharsAux f2 n acc := by
  induction f1 with
  | zero => intro f2 n acc h1 h2; omega
  | succ g1 ih =>
    intro f2 n acc h1 h2
    cases f2 with
    | zero => omega
    | succ g2 =>
      by_cases h : n < 10
      · simp [natCharsAux, h]
      · rw [natCharsAux, if_neg h, natCharsAux, if_neg h]
        exact ih g2 (n / 10) _ (by omega) (by omega)

theorem natChars_unfold (n : Nat) :
    natChars n = (if n < 10 then [] else natChars (n / 10)) ++ [Char.ofNat (48 + n % 10)] := by
  by_cases h : n < 10
  · rw [natChars, natCharsAux, if_pos h, if_pos h]
    have hm : n % 10 = n := Nat.mod_eq_of_lt h
    simp [hm]
  · rw [natChars, natCharsAux, if_neg h, if_neg h,
      natCharsAux_acc n (n / 10) [Char.ofNat (48 + n % 10)],
      natCharsAux_fuel n (n / 10 + 1) (n / 10) [] (by omega) (by omega)]
    rfl

theorem digitChar_isDigit (k : Nat) (h : k < 10) :
    isDigitChar (Char.ofNat (48 + k)) = true ∧ (Char.ofNat (48 + k)).toNat = 48 + k := by
  interval_cases k <;> exact ⟨by decide, by decide⟩

theorem natChars_ne_nil (n : Nat) : natChars n ≠ [] := by
  rw [natChars_unfold]
  simp

theorem natChars_all_digits (n : Nat) : ∀ c ∈ natChars n, isDigitChar c = true := by
  induction n using Nat.strongRecOn with
  | _ n ih =>
    intro c hc
    rw [natChars_unfold] at hc
    rcases List.mem_append.mp hc with h1 | h2
    · by_cases h : n < 10
      · simp [h] at h1
      · exact ih (n / 10) (by omega) c (by simpa [h] using h1)
    · rw [List.mem_singleton] at h2
      subst h2
      exact (digitChar_isDigit (n % 10) (by omega)).1

theorem digitsToNat_natChars (n : Nat) : digitsToNat (natChars n) = n := by
  induction n using Nat.strongRecOn with
  | _ n ih =>
    rw [digitsToNat, natChars_unfold, List.foldl_append]
    by_cases h : n < 10
    · simp only [if_pos h, List.foldl_nil, List.foldl_cons]
      rw [(digitChar_isDigit (n % 10) (by omega)).2]
      omega
    · simp only [if_neg h, List.foldl_cons, List.foldl_nil]
      have hrec := ih (n / 10) (by omega)
      rw [digitsToNat] at hrec
      rw [hrec, (digitChar_isDigit (n % 10) (by omega)).2]
      omega

/-- A remainder that cannot extend a digit run: empty or starting with a
non-digit.  Every JSON delimiter and the end of input qualify. -/
def numStop : List Char → Bool
  | [] => true
  | c :: _ => !isDigitChar c

theorem takeDigits_stop (cs : List Char) (h : numStop cs = true) :
    takeDigits cs = ([], cs) := by
  cases cs with
  | nil => rfl
  | cons c t =>
    rw [numStop] at h
    simp [takeDigits, (show isDigitChar c = false by simpa using h)]

theorem takeDigits_run (ds : List Char) (hds : ∀ c ∈ ds, isDigitChar c = true)
    (rest : List Char) (hrest : numStop rest = true) :
    takeDigits (ds ++ rest) = (ds, rest) := by
  induction ds with
  | nil => simpa using takeDigits_stop rest hrest
  | cons c t ih =>
    have hc := hds c (List.mem_cons_self ..)
    have ht := ih fun x hx => hds x (List.mem_cons_of_mem _ hx)
    simp [takeDigits, hc, ht]

theorem natChars_head (n : Nat) :
    ∃ c t, natChars n = c :: t ∧ isDigitChar c = true := by
  match h : natChars n with
  | [] => exact absurd h (natChars_ne_nil n)
  | c :: t => exact ⟨c, t, rfl, natChars_all_digits n c (h ▸ List.mem_cons_self ..)⟩

theorem parseNum_intChars (n : Int) (rest : List Char) (hrest : numStop rest = true) :
    parseNum (intChars n ++ rest) = some (n, rest) := by
  by_cases hn : n < 0
  · have harg : intChars n ++ rest = '-' :: (natChars n.natAbs ++ rest) := by
      simp [intChars, hn]
    rw [harg, parseNum, if_pos rfl,
      takeDigits_run _ (natChars_all_digits _) _ hrest]
    obtain ⟨c, t, hct, hc⟩ := natChars_head n.natAbs
    rw [hct]
    show some (-(digitsToNat (c :: t) : Int), rest) = some (n, rest)
    have hd : digitsToNat (c :: t) = n.natAbs := by
      rw [← hct]
      exact digitsToNat_natChars _
    rw [hd]
    have habs : -(n.natAbs : Int) = n := by omega
    rw [habs]
  · obtain ⟨c, t, hct, hc⟩ := natChars_head n.natAbs
    have hcm : c ≠ '-' := by
      intro hEq
      rw [hEq] at hc
      exact absurd hc (by decide)
    have harg : intChars n ++ rest = c :: (t ++ rest) := by
      rw [intChars, if_neg hn, hct]
      simp
    rw [harg, parseNum, if_neg hcm]
    have htd : takeDigits (c :: (t ++ rest)) = (c :: t, rest) := by
      have h0 := takeDigits_run (natChars n.natAbs) (natChars_all_digits _) rest hrest
      rwa [hct, List.cons_append] at h0
    rw [htd]
    show some ((digitsToNat (c :: t) : Int), rest) = some (n, rest)
    have hd : digitsToNat (c :: t) = n.natAbs := by
      rw [← hct]
      exact digitsToNat_natChars _
    rw [hd]
    have habs : ((n.natAbs : Nat) : Int) = n := by omega
    rw [habs]

/-! ## Round-trip of the string escaping -/

theorem hexToNat_hexDigit (k : Nat) (h : k < 16) : hexToNat (hexDigit k) = some k := by
  interval_cases k <;> decide

theorem parseStrBody_escapeChar (c : Char) (acc rest : List Char) :
    parseStrBody acc (escapeChar c ++ rest) = parseStrBody (c :: acc) rest := by
  by_cases h1 : c = '"'
  · subst h1
    rw [show escapeChar '"' = ['\\', '"'] from by decide, List.cons_append,
      List.singleton_append, parseStrBody.eq_def]
    simp [unescapeChar]
  by_cases h2 : c = '\\'
  · subst h2
    rw [show escapeChar '\\' = ['\\', '\\'] from by decide, List.cons_append,
      List.singleton_append, parseStrBody.eq_def]
    simp [unescapeChar]
  by_cases h3 : c = '\n'
  · subst h3
    rw [show escapeChar '\n' = ['\\', 'n'] from by decide, List.cons_append,
      List.singleton_append, parseStrBody.eq_def]
    simp [unescapeChar]
  by_cases h4 : c = '\t'
  · subst h4
    rw [show escapeChar '\t' = ['\\', 't'] from by decide, List.cons_append,
      List.singleton_append, parseStrBody.eq_def]
    simp [unescapeChar]
  by_cases h5 : c = '\r'
  · subst h5
    rw [show escapeChar '\r' = ['\\', 'r'] from by decide, List.cons_append,
      List.singleton_append, parseStrBody.eq_def]
    simp [unescapeChar]
  by_cases h6 : c = Char.ofNat 8
  · subst h6
    rw [show escapeChar (Char.ofNat 8) = ['\\', 'b'] from by decide, List.cons_append,
      List.singleton_append, parseStrBody.eq_def]
    simp [unescapeChar]
  by_cases h7 : c = Char.ofNat 12
  · subst h7
    rw [show escapeChar (Char.ofNat 12) = ['\\', 'f'] from by decide, List.cons_append,
      List.singleton_append, parseStrBody.eq_def]
    simp [unescapeChar]
  by_cases h8 : c.toNat < 32
  · have hhi : hexToNat (hexDigit (c.toNat / 16)) = some (c.toNat / 16) :=
      hexToNat_hexDigit _ (by omega)
    have hlo : hexToNat (hexDigit (c.toNat % 16)) = some (c.toNat % 16) :=
      hexToNat_hexDigit _ (by omega)
    have h0 : hexToNat '0' = some 0 := by decide
    rw [escapeChar, if_neg h1, if_neg h2, if_neg h3, if_neg h4, if_neg h5, if_neg h6,
      if_neg h7, if_pos h8, List.cons_append, List.cons_append, List.cons_append,
      List.cons_append, List.cons_append, List.singleton_append, parseStrBody.eq_def]
    simp only [reduceIte]
    simp [h0, hhi, hlo]
    have hch : ∀ A : Nat, A = c.toNat →
        parseStrBody (Char.ofNat A :: acc) rest = parseStrBody (c :: acc) rest := by
      intro A hA
      rw [hA, Char.ofNat_toNat]
    exact hch _ (by omega)
  · rw [escapeChar, if_neg h1, if_neg h2, if_neg h3, if_neg h4, if_neg h5, if_neg h6,
      if_neg h7, if_neg h8, List.singleton_append, parseStrBody.eq_def]
    simp [h1, h2]

theorem parseStrBody_escapeStr (cs : List Char) : ∀ (acc rest : List Char),
    parseStrBody acc (escapeStr cs ++ '"' :: rest)
      = some (String.mk (acc.reverse ++ cs), rest) := by
  induction cs with
  | nil =>
    intro acc rest
    rw [show escapeStr [] ++ '"' :: rest = '"' :: rest from rfl, parseStrBody.eq_def]
    simp
  | cons c t ih =>
    intro acc rest
    rw [escapeStr, List.append_assoc, parseStrBody_escapeChar, ih]
    simp

theorem parseStrBody_dumps (s : String) (rest : List Char) :
    parseStrBody [] (escapeStr s.data ++ '"' :: rest) = some (s, rest) := by
  rw [parseStrBody_escapeStr]
  simp [mk_data]

/-! ## Well-formed JSON values and parser support lemmas -/

/-- Values whose object member lists all have distinct keys, as every value
built by the parser does. -/
inductive JsonWF : Json → Prop where
  | null : JsonWF .null
  | bool (b : Bool) : JsonWF (.bool b)
  | num (n : Int) : JsonWF (.num n)
  | str (s : String) : JsonWF (.str s)
  | arr (es : List Json) : (∀ e ∈ es, JsonWF e) → JsonWF (.arr es)
  | obj (ms : List (String × Json)) : (ms.map Prod.fst).Nodup →
      (∀ kv ∈ ms, JsonWF kv.2) → JsonWF (.obj ms)

theorem lookupKey_none_iff (ms : List (String × Json)) (key : String) :
    lookupKey ms key = none ↔ key ∉ ms.map Prod.fst := by
  induction ms with
  | nil => simp [lookupKey]
  | cons kv ms2 ih =>
    obtain ⟨k, v⟩ := kv
    rw [lookupKey]
    by_cases h : k = key
    · subst h
      simp
    · rw [if_neg h, ih]
      simp only [List.map_cons, List.mem_cons]
      constructor
      · intro hnot hmem
        rcases hmem with hEq | hmem2
        · exact h hEq.symm
        · exact hnot hmem2
      · intro hnot hmem2
        exact hnot (Or.inr hmem2)

theorem digitChar_facts {c : Char} (h : isDigitChar c = true) :
    isWsChar c = false ∧ c ≠ ']' ∧ c ≠ '}' ∧ c ≠ ',' ∧ c ≠ '-' ∧ c ≠ 'n' ∧ c ≠ 't'
      ∧ c ≠ 'f' ∧ c ≠ '"' ∧ c ≠ '[' ∧ c ≠ '{' := by
  have hws : isWsChar c = false := by
    by_contra hcon
    rw [Bool.not_eq_false, isWsChar] at hcon
    simp only [Bool.or_eq_true, decide_eq_true_eq] at hcon
    rcases hcon with ((rfl | rfl) | rfl) | rfl <;> exact absurd h (by decide)
  refine ⟨hws, ?_, ?_, ?_, ?_, ?_, ?_, ?_, ?_, ?_, ?_⟩ <;>
    exact fun hEq => absurd h (by subst hEq; decide)

theorem skipWs_cons (c : Char) (t : List Char) (h : isWsChar c = false) :
    skipWs (c :: t) = c :: t := by
  rw [skipWs, if_neg (by simp [h])]

theorem dumpsVal_head (j : Json) :
    ∃ c t, dumpsVal j = c :: t ∧ isWsChar c = false ∧ c ≠ ']' ∧ c ≠ '}' := by
  cases j with
  | num n =>
    by_cases hn : n < 0
    · refine ⟨'-', natChars n.natAbs, ?_, by decide, by decide, by decide⟩
      simp [dumpsVal, intChars, hn]
    · obtain ⟨c, t, hct, hc⟩ := natChars_head n.natAbs
      obtain ⟨hws, hrb, hcb, _⟩ := digitChar_facts hc
      refine ⟨c, t, ?_, hws, hrb, hcb⟩
      simp [dumpsVal, intChars, hn, hct]
  | bool b => cases b <;> exact ⟨_, _, rfl, by decide, by decide, by decide⟩
  | _ => exact ⟨_, _, rfl, by decide, by decide, by decide⟩

theorem skipWs_dumpsVal (j : Json) (x : List Char) :
    skipWs (dumpsVal j ++ x) = dumpsVal j ++ x := by
  obtain ⟨c, t, hct, hws, _⟩ := dumpsVal_head j
  rw [hct, List.cons_append, skipWs_cons _ _ hws]

/-! ## Step lemmas for the parser at successor fuel -/

theorem parseVal_quote_step (f : Nat) (X : List Char) :
    parseVal (f + 1) ('"' :: X)
      = (match parseStrBody [] X with
        | some (s, r2) => some (Json.str s, r2)
        | none => none) := by
  rw [parseVal, skipWs_cons _ _ (by decide)]
  rfl

theorem parseVal_lbracket_step (f : Nat) (X : List Char) :
    parseVal (f + 1) ('[' :: X)
      = (match skipWs X with
        | [] => none
        | c :: r2 =>
          if c = ']' then some (Json.arr [], r2)
          else
            match parseElems f (c :: r2) with
            | some (es, r3) => some (Json.arr es, r3)
            | none => none) := by
  rw [parseVal, skipWs_cons _ _ (by decide)]
  rfl

theorem parseVal_lbrace_step (f : Nat) (X : List Char) :
    parseVal (f + 1) ('{' :: X)
      = (match skipWs X with
        | [] => none
        | c :: r2 =>
          if c = '}' then some (Json.obj [], r2)
          else
            match parseMembers f (c :: r2) with
            | some (ms, r3) => some (Json.obj ms, r3)
            | none => none) := by
  rw [parseVal, skipWs_cons _ _ (by decide)]
  rfl

theorem parseVal_num_step (f : Nat) (c : Char) (t : List Char)
    (hws : isWsChar c = false) (hn : c ≠ 'n') (ht : c ≠ 't') (hf : c ≠ 'f')
    (hq : c ≠ '"') (hbk : c ≠ '[') (hbc : c ≠ '{')
    (hg : (c == '-' || isDigitChar c) = true) :
    parseVal (f + 1) (c :: t)
      = (match parseNum (c :: t) with
        | some (n, r2) => some (Json.num n, r2)
        | none => none) := by
  rw [parseVal, skipWs_cons c t hws]
  simp [hn, ht, hf, hq, hbk, hbc, hg]

theorem parseElems_step (f : Nat) (cs : List Char) :
    parseElems (f + 1) cs
      = (match parseVal f cs with
        | none => none
        | some (v, r) =>
          match skipWs r with
          | ',' :: r2 =>
            match parseElems f (skipWs r2) with
            | some (vs, r3) => some (v :: vs, r3)
            | none => none
          | ']' :: r2 => some ([v], r2)
          | _ => none) := by
  rw [parseElems]

theorem parseMembers_step (f : Nat) (cs : List Char) :
    parseMembers (f + 1) cs
      = (match skipWs cs with
        | '"' :: r =>
          match parseStrBody [] r with
          | none => none
          | some (key, r1) =>
            match skipWs r1 with
            | ':' :: r2 =>
              match parseVal f (skipWs r2) with
              | none => none
              | some (v, r3) =>
                match skipWs r3 with
                | ',' :: r4 =>
                  match parseMembers f (skipWs r4) with
                  | some (ms, r5) => some (insertMember key v ms, r5)
                  | none => none
                | '}' :: r4 => some ([(key, v)], r4)
                | _ => none
            | _ => none
        | _ => none) := by
  rw [parseMembers]

/-! ## The parse-dumps round-trip -/

theorem numStop_cons (c : Char) (X : List Char) (h : isDigitChar c = false) :
    numStop (c :: X) = true := by
  simp [numStop, h]

theorem dumpsElems_head (e : Json) (es : List Json) :
    ∃ c t, dumpsElems (e :: es) = c :: t ∧ isWsChar c = false ∧ c ≠ ']' := by
  obtain ⟨c, t, hct, hws, hrb, _⟩ := dumpsVal_head e
  cases es with
  | nil => exact ⟨c, t, by simp [dumpsElems, hct], hws, hrb⟩
  | cons e2 es2 =>
    exact ⟨c, t ++ ',' :: ' ' :: dumpsElems (e2 :: es2), by simp [dumpsElems, hct], hws, hrb⟩

theorem dumpsMembers_head (kv : String × Json) (ms : List (String × Json)) :
    ∃ t, dumpsMembers (kv :: ms) = '"' :: t := by
  obtain ⟨k, v⟩ := kv
  cases ms with
  | nil => exact ⟨_, rfl⟩
  | cons kv2 ms2 => exact ⟨_, rfl⟩

theorem parseVal_arr_go (f : Nat) (e : Json) (es : List Json) (rest : List Char) :
    parseVal (f + 1) ('[' :: (dumpsElems (e :: es) ++ ']' :: rest))
      = (match parseElems f (dumpsElems (e :: es) ++ ']' :: rest) with
        | some (es2, r3) => some (Json.arr es2, r3)
        | none => none) := by
  obtain ⟨c0, t0, hct0, hws0, hrb0⟩ := dumpsElems_head e es
  rw [parseVal_lbracket_step, hct0, List.cons_append, skipWs_cons _ _ hws0]
  show (if c0 = ']' then some (Json.arr [], t0 ++ ']' :: rest)
      else
        match parseElems f (c0 :: (t0 ++ ']' :: rest)) with
        | some (es2, r3) => some (Json.arr es2, r3)
        | none => none)
    = (match parseElems f (c0 :: (t0 ++ ']' :: rest)) with
      | some (es2, r3) => some (Json.arr es2, r3)
      | none => none)
  rw [if_neg hrb0]

theorem parseVal_obj_go (f : Nat) (kv : String × Json) (ms : List (String × Json))
    (rest : List Char) :
    parseVal (f + 1) ('{' :: (dumpsMembers (kv :: ms) ++ '}' :: rest))
      = (match parseMembers f (dumpsMembers (kv :: ms) ++ '}' :: rest) with
        | some (ms2, r3) => some (Json.obj ms2, r3)
        | none => none) := by
  obtain ⟨t, ht⟩ := dumpsMembers_head kv ms
  rw [parseVal_lbrace_step, ht, List.cons_append, skipWs_cons _ _ (by decide)]
  show (if ('"' : Char) = '}' then some (Json.obj [], t ++ '}' :: rest)
      else
        match parseMembers f ('"' :: (t ++ '}' :: rest)) with
        | some (ms2, r3) => some (Json.obj ms2, r3)
        | none => none)
    = (match parseMembers f ('"' :: (t ++ '}' :: rest)) with
      | some (ms2, r3) => some (Json.obj ms2, r3)
      | none => none)
  rw [if_neg (by decide)]

mutual

theorem rtVal : ∀ (j : Json) (fuel : Nat) (rest : List Char),
    JsonWF j → (dumpsVal j).length < fuel → numStop rest = true →
    parseVal fuel (dumpsVal j ++ rest) = some (j, rest)
  | .null, fuel, rest, _, hf, _ => by
    cases fuel with
    | zero => simp [dumpsVal] at hf
    | succ f => rfl
  | .bool b, fuel, rest, _, hf, _ => by
    cases fuel with
    | zero => cases b <;> simp [dumpsVal] at hf
    | succ f => cases b <;> rfl
  | .num n, fuel, rest, _, hf, hr => by
    cases fuel with
    | zero => exact absurd hf (Nat.not_lt_zero _)
    | succ f =>
      by_cases hn : n < 0
      · have harg : dumpsVal (.num n) ++ rest = '-' :: (natChars n.natAbs ++ rest) := by
          simp [dumpsVal, intChars, hn]
        rw [harg, parseVal_num_step f '-' _ (by decide) (by decide) (by decide) (by decide)
            (by decide) (by decide) (by decide) (by decide), ← harg,
          show dumpsVal (.num n) = intChars n from rfl, parseNum_intChars n rest hr]
      · obtain ⟨c, t, hct, hc⟩ := natChars_head n.natAbs
        obtain ⟨hws, _, _, _, hminus, hn1, ht1, hf1, hq1, hbk1, hbc1⟩ := digitChar_facts hc
        have harg : dumpsVal (.num n) ++ rest = c :: (t ++ rest) := by
          simp [dumpsVal, intChars, hn, hct]
        rw [harg, parseVal_num_step f c _ hws hn1 ht1 hf1 hq1 hbk1 hbc1 (by simp [hc]),
          ← harg, show dumpsVal (.num n) = intChars n from rfl, parseNum_intChars n rest hr]
  | .str s, fuel, rest, _, hf, _ => by
    cases fuel with
    | zero => exact absurd hf (Nat.not_lt_zero _)
    | succ f =>
      have harg : dumpsVal (.str s) ++ rest = '"' :: (escapeStr s.data ++ '"' :: rest) := by
        simp [dumpsVal]
      rw [harg, parseVal_quote_step, parseStrBody_dumps]
  | .arr [], fuel, rest, _, hf, _ => by
    cases fuel with
    | zero => simp [dumpsVal, dumpsElems] at hf
    | succ f => rfl
  | .arr (e :: es), fuel, rest, hwf, hf, _ => by
    cases fuel with
    | zero => exact absurd hf (Nat.not_lt_zero _)
    | succ f =>
      have hwfs : ∀ x ∈ e :: es, JsonWF x := by
        cases hwf with
        | arr _ h => exact h
      have hfe : (dumpsElems (e :: es)).length + 1 < f := by
        have hL : (dumpsVal (Json.arr (e :: es))).length
            = (dumpsElems (e :: es)).length + 2 := by
          simp [dumpsVal]
        omega
      have harg : dumpsVal (.arr (e :: es)) ++ rest
          = '[' :: (dumpsElems (e :: es) ++ ']' :: rest) := by
        simp [dumpsVal]
      rw [harg, parseVal_arr_go, rtElems e es f rest hwfs hfe]
  | .obj [], fuel, rest, _, hf, _ => by
    cases fuel with
    | zero => simp [dumpsVal, dumpsMembers] at hf
    | succ f => rfl
  | .obj (kv :: ms), fuel, rest, hwf, hf, _ => by
    cases fuel with
    | zero => exact absurd hf (Nat.not_lt_zero _)
    | succ f =>
      have hnd : ((kv :: ms).map Prod.fst).Nodup := by
        cases hwf with
        | obj _ h1 h2 => exact h1
      have hwfs : ∀ x ∈ kv :: ms, JsonWF x.2 := by
        cases hwf with
        | obj _ h1 h2 => exact h2
      have hfm : (dumpsMembers (kv :: ms)).length + 1 < f := by
        have hL : (dumpsVal (Json.obj (kv :: ms))).length
            = (dumpsMembers (kv :: ms)).length + 2 := by
          simp [dumpsVal]
        omega
      have harg : dumpsVal (.obj (kv :: ms)) ++ rest
          = '{' :: (dumpsMembers (kv :: ms) ++ '}' :: rest) := by
        simp [dumpsVal]
      rw [harg, parseVal_obj_go, rtMembers kv ms f rest hwfs hnd hfm]
  termination_by j _ _ _ _ _ => sizeOf j

theorem rtElems : ∀ (e : Json) (es : List Json) (fuel : Nat) (rest : List Char),
    (∀ x ∈ e :: es, JsonWF x) → (dumpsElems (e :: es)).length + 1 < fuel →
    parseElems fuel (dumpsElems (e :: es) ++ ']' :: rest) = some (e :: es, rest)
  | e, [], fuel, rest, hwf, hf => by
    cases fuel with
    | zero => omega
    | succ f =>
      have harg : dumpsElems [e] ++ ']' :: rest = dumpsVal e ++ ']' :: rest := by
        simp [dumpsElems]
      have hfe : (dumpsVal e).length < f := by
        have hL : (dumpsElems [e]).length = (dumpsVal e).length := by simp [dumpsElems]
        omega
      have hv := rtVal e f (']' :: rest) (hwf e (List.mem_cons_self ..)) hfe
        (numStop_cons _ _ (by decide))
      rw [parseElems_step, harg, hv]
      rfl
  | e, x :: xs, fuel, rest, hwf, hf => by
    cases fuel with
    | zero => omega
    | succ f =>
      have harg : dumpsElems (e :: x :: xs) ++ ']' :: rest
          = dumpsVal e ++ ',' :: ' ' :: (dumpsElems (x :: xs) ++ ']' :: rest) := by
        simp [dumpsElems]
      have hL : (dumpsElems (e :: x :: xs)).length
          = (dumpsVal e).length + 2 + (dumpsElems (x :: xs)).length := by
        simp [dumpsElems]
        omega
      have hfe : (dumpsVal e).length < f := by omega
      have hfx : (dumpsElems (x :: xs)).length + 1 < f := by omega
      have hv := rtVal e f (',' :: ' ' :: (dumpsElems (x :: xs) ++ ']' :: rest))
        (hwf e (List.mem_cons_self ..)) hfe (numStop_cons _ _ (by decide))
      have htail := rtElems x xs f rest (fun y hy => hwf y (List.mem_cons_of_mem _ hy)) hfx
      have hsk2 : skipWs (',' :: ' ' :: (dumpsElems (x :: xs) ++ ']' :: rest))
          = ',' :: ' ' :: (dumpsElems (x :: xs) ++ ']' :: rest) :=
        skipWs_cons _ _ (by decide)
      have hskip : skipWs (' ' :: (dumpsElems (x :: xs) ++ ']' :: rest))
          = dumpsElems (x :: xs) ++ ']' :: rest := by
        obtain ⟨c1, t1, hct1, hws1, _⟩ := dumpsElems_head x xs
        rw [skipWs, if_pos (by decide), hct1, List.cons_append, skipWs_cons _ _ hws1]
      rw [parseElems_step, harg, hv]
      simp only [hsk2, hskip, htail]
  termination_by e es _ _ _ _ => sizeOf e + sizeOf es

theorem rtMembers : ∀ (kv : String × Json) (ms : List (String × Json)) (fuel : Nat)
    (rest : List Char),
    (∀ x ∈ kv :: ms, JsonWF x.2) → ((kv :: ms).map Prod.fst).Nodup →
    (dumpsMembers (kv :: ms)).length + 1 < fuel →
    parseMembers fuel (dumpsMembers (kv :: ms) ++ '}' :: rest) = some (kv :: ms, rest)
  | (k, v), [], fuel, rest, hwf, hnd, hf => by
    cases fuel with
    | zero => omega
    | succ f =>
      have harg : dumpsMembers [(k, v)] ++ '}' :: rest
          = '"' :: (escapeStr k.data ++ '"' :: (':' :: ' ' :: (dumpsVal v ++ '}' :: rest))) := by
        simp [dumpsMembers]
      have hfv : (dumpsVal v).length < f := by
        have hL : (dumpsMembers [(k, v)]).length
            = (escapeStr k.data).length + 4 + (dumpsVal v).length := by
          simp [dumpsMembers]
          omega
        omega
      have hstr := parseStrBody_dumps k (':' :: ' ' :: (dumpsVal v ++ '}' :: rest))
      have hsk1 : skipWs (':' :: ' ' :: (dumpsVal v ++ '}' :: rest))
          = ':' :: ' ' :: (dumpsVal v ++ '}' :: rest) := skipWs_cons _ _ (by decide)
      have hskv : skipWs (' ' :: (dumpsVal v ++ '}' :: rest)) = dumpsVal v ++ '}' :: rest := by
        rw [skipWs, if_pos (by decide)]
        exact skipWs_dumpsVal v _
      have hv := rtVal v f ('}' :: rest) (hwf (k, v) (List.mem_cons_self ..)) hfv
        (numStop_cons _ _ (by decide))
      have hsk3 : skipWs ('}' :: rest) = '}' :: rest := skipWs_cons _ _ (by decide)
      rw [parseMembers_step, harg, skipWs_cons _ _ (by decide)]
      simp only [hstr, hsk1, hskv, hv, hsk3]
  | (k, v), kv2 :: ms2, fuel, rest, hwf, hnd, hf => by
    cases fuel with
    | zero => omega
    | succ f =>
      have harg : dumpsMembers ((k, v) :: kv2 :: ms2) ++ '}' :: rest
          = '"' :: (escapeStr k.data ++ '"' :: (':' :: ' ' :: (dumpsVal v
              ++ ',' :: ' ' :: (dumpsMembers (kv2 :: ms2) ++ '}' :: rest)))) := by
        simp [dumpsMembers]
      have hL : (dumpsMembers ((k, v) :: kv2 :: ms2)).length
          = (escapeStr k.data).length + 6 + (dumpsVal v).length
            + (dumpsMembers (kv2 :: ms2)).length := by
        simp [dumpsMembers]
        omega
      have hfv : (dumpsVal v).length < f := by omega
      have hfm : (dumpsMembers (kv2 :: ms2)).length + 1 < f := by omega
      have hnd2 : (k :: (kv2 :: ms2).map Prod.fst).Nodup := by
        simpa using hnd
      have hndTail : ((kv2 :: ms2).map Prod.fst).Nodup := (List.nodup_cons.mp hnd2).2
      have hkNot : k ∉ (kv2 :: ms2).map Prod.fst := (List.nodup_cons.mp hnd2).1
      have hins : insertMember k v (kv2 :: ms2) = (k, v) :: kv2 :: ms2 := by
        rw [insertMember, (lookupKey_none_iff _ _).mpr hkNot]
      have hstr := parseStrBody_dumps k (':' :: ' ' :: (dumpsVal v
        ++ ',' :: ' ' :: (dumpsMembers (kv2 :: ms2) ++ '}' :: rest)))
      have hsk1 : skipWs (':' :: ' ' :: (dumpsVal v
            ++ ',' :: ' ' :: (dumpsMembers (kv2 :: ms2) ++ '}' :: rest)))
          = ':' :: ' ' :: (dumpsVal v
            ++ ',' :: ' ' :: (dumpsMembers (kv2 :: ms2) ++ '}' :: rest)) :=
        skipWs_cons _ _ (by decide)
      have hskv : skipWs (' ' :: (dumpsVal v
            ++ ',' :: ' ' :: (dumpsMembers (kv2 :: ms2) ++ '}' :: rest)))
          = dumpsVal v ++ ',' :: ' ' :: (dumpsMembers (kv2 :: ms2) ++ '}' :: rest) := by
        rw [skipWs, if_pos (by decide)]
        exact skipWs_dumpsVal v _
      have hv := rtVal v f (',' :: ' ' :: (dumpsMembers (kv2 :: ms2) ++ '}' :: rest))
        (hwf (k, v) (List.mem_cons_self ..)) hfv (numStop_cons _ _ (by decide))
      have hsk2 : skipWs (',' :: ' ' :: (dumpsMembers (kv2 :: ms2) ++ '}' :: rest))
          = ',' :: ' ' :: (dumpsMembers (kv2 :: ms2) ++ '}' :: rest) :=
        skipWs_cons _ _ (by decide)
      have hskm : skipWs (' ' :: (dumpsMembers (kv2 :: ms2) ++ '}' :: rest))
          = dumpsMembers (kv2 :: ms2) ++ '}' :: rest := by
        rw [skipWs, if_pos (by decide)]
        obtain ⟨t2, ht2⟩ := dumpsMembers_head kv2 ms2
        rw [ht2, List.cons_append, skipWs_cons _ _ (by decide)]
      have hm := rtMembers kv2 ms2 f rest (fun y hy => hwf y (List.mem_cons_of_mem _ hy))
        hndTail hfm
      rw [parseMembers_step, harg, skipWs_cons _ _ (by decide)]
      simp only [hstr, hsk1, hskv, hv, hsk2, hskm, hm, hins]
  termination_by kv ms _ _ _ _ _ => sizeOf kv + sizeOf ms

end

theorem json_loads_dumps (j : Json) (h : JsonWF j) : json_loads (json_dumps j) = some j := by
  have hrt := rtVal j ((dumpsVal j).length + 1) [] h (by omega) rfl
  rw [List.append_nil] at hrt
  rw [json_loads, json_dumps]
  show (match parseVal ((dumpsVal j).length + 1) (dumpsVal j) with
    | some (j2, r) => if skipWs r = [] then some j2 else none
    | none => none) = some j
  rw [hrt]
  rfl

/-! ## Every parsed value is well-formed -/

theorem mem_removeKey {kv : String × Json} {ms : List (String × Json)} {key : String}
    (h : kv ∈ removeKey ms key) : kv ∈ ms := by
  induction ms with
  | nil => simp [removeKey] at h
  | cons kv2 ms2 ih =>
    obtain ⟨k2, v2⟩ := kv2
    rw [removeKey] at h
    by_cases hk : k2 = key
    · rw [if_pos hk] at h
      exact List.mem_cons_of_mem _ (ih h)
    · rw [if_neg hk] at h
      rcases List.mem_cons.mp h with rfl | h2
      · exact List.mem_cons_self ..
      · exact List.mem_cons_of_mem _ (ih h2)

theorem not_mem_map_fst_removeKey (ms : List (String × Json)) (key : String) :
    key ∉ (removeKey ms key).map Prod.fst := by
  induction ms with
  | nil => simp [removeKey]
  | cons kv2 ms2 ih =>
    obtain ⟨k2, v2⟩ := kv2
    rw [removeKey]
    by_cases hk : k2 = key
    · rw [if_pos hk]
      exact ih
    · rw [if_neg hk]
      simp only [List.map_cons, List.mem_cons]
      rintro (rfl | h2)
      · exact hk rfl
      · exact ih h2

theorem nodup_removeKey (ms : List (String × Json)) (key : String)
    (h : (ms.map Prod.fst).Nodup) : ((removeKey ms key).map Prod.fst).Nodup := by
  induction ms with
  | nil => simp [removeKey]
  | cons kv2 ms2 ih =>
    obtain ⟨k2, v2⟩ := kv2
    simp only [List.map_cons, List.nodup_cons] at h
    rw [removeKey]
    by_cases hk : k2 = key
    · rw [if_pos hk]
      exact ih h.2
    · rw [if_neg hk]
      simp only [List.map_cons, List.nodup_cons]
      refine ⟨fun hmem => ?_, ih h.2⟩
      obtain ⟨kv3, hkv3, hEq⟩ := List.mem_map.mp hmem
      exact h.1 (List.mem_map.mpr ⟨kv3, mem_removeKey hkv3, hEq⟩)

theorem lookupKey_some_mem {ms : List (String × Json)} {key : String} {v : Json}
    (h : lookupKey ms key = some v) : (key, v) ∈ ms := by
  induction ms with
  | nil => simp [lookupKey] at h
  | cons kv2 ms2 ih =>
    obtain ⟨k2, v2⟩ := kv2
    rw [lookupKey] at h
    by_cases hk : k2 = key
    · rw [if_pos hk] at h
      cases h
      subst hk
      exact List.mem_cons_self ..
    · rw [if_neg hk] at h
      exact List.mem_cons_of_mem _ (ih h)

theorem insertMember_nodup (key : String) (v : Json) (ms : List (String × Json))
    (h : (ms.map Prod.fst).Nodup) :
    ((insertMember key v ms).map Prod.fst).Nodup := by
  rw [insertMember]
  match hlk : lookupKey ms key with
  | none =>
    simp only [List.map_cons, List.nodup_cons]
    exact ⟨(lookupKey_none_iff ms key).mp hlk, h⟩
  | some v2 =>
    simp only [List.map_cons, List.nodup_cons]
    exact ⟨not_mem_map_fst_removeKey ms key, nodup_removeKey ms key h⟩

theorem insertMember_values_wf (key : String) (v : Json) (ms : List (String × Json))
    (hv : JsonWF v) (h : ∀ kv ∈ ms, JsonWF kv.2) :
    ∀ kv ∈ insertMember key v ms, JsonWF kv.2 := by
  rw [insertMember]
  match hlk : lookupKey ms key with
  | none =>
    intro kv hkv
    rcases List.mem_cons.mp hkv with rfl | h2
    · exact hv
    · exact h kv h2
  | some v2 =>
    intro kv hkv
    rcases List.mem_cons.mp hkv with rfl | h2
    · exact h (key, v2) (lookupKey_some_mem hlk)
    · exact h kv (mem_removeKey h2)

mutual

theorem parseVal_wf : ∀ (fuel : Nat) (cs : List Char) (j : Json) (r : List Char),
    parseVal fuel cs = some (j, r) → JsonWF j
  | 0, _, _, _, h => by simp [parseVal] at h
  | fuel + 1, cs, j, r, h => by
    rw [parseVal] at h
    repeat' split at h
    all_goals first
      | contradiction
      | (simp only [Option.some.injEq, Prod.mk.injEq] at h
         obtain ⟨rfl, rfl⟩ := h
         first
           | exact JsonWF.null
           | exact JsonWF.bool _
           | exact JsonWF.num _
           | exact JsonWF.str _
           | exact JsonWF.arr [] (by simp)
           | exact JsonWF.obj [] (by simp) (by simp)
           | exact JsonWF.arr _ (parseElems_wf _ _ _ _ (by assumption))
           | exact JsonWF.obj _ (parseMembers_wf _ _ _ _ (by assumption)).1
               (parseMembers_wf _ _ _ _ (by assumption)).2)

theorem parseElems_wf : ∀ (fuel : Nat) (cs : List Char) (es : List Json) (r : List Char),
    parseElems fuel cs = some (es, r) → ∀ e ∈ es, JsonWF e
  | 0, _, _, _, h => by simp [parseElems] at h
  | fuel + 1, cs, es, r, h => by
    rw [parseElems] at h
    repeat' split at h
    all_goals first
      | contradiction
      | (simp only [Option.some.injEq, Prod.mk.injEq] at h
         obtain ⟨rfl, rfl⟩ := h
         intro e he
         first
           | (rcases List.mem_cons.mp he with rfl | he2
              · exact parseVal_wf _ _ _ _ (by assumption)
              · exact parseElems_wf _ _ _ _ (by assumption) _ he2)
           | (rcases List.mem_singleton.mp he with rfl
              exact parseVal_wf _ _ _ _ (by assumption)))

theorem parseMembers_wf : ∀ (fuel : Nat) (cs : List Char) (ms : List (String × Json))
    (r : List Char),
    parseMembers fuel cs = some (ms, r) →
    (ms.map Prod.fst).Nodup ∧ ∀ kv ∈ ms, JsonWF kv.2
  | 0, _, _, _, h => by simp [parseMembers] at h
  | fuel + 1, cs, ms, r, h => by
    rw [parseMembers] at h
    repeat' split at h
    all_goals first
      | contradiction
      | (simp only [Option.some.injEq, Prod.mk.injEq] at h
         obtain ⟨rfl, rfl⟩ := h
         first
           | exact ⟨insertMember_nodup _ _ _ (parseMembers_wf _ _ _ _ (by assumption)).1,
               insertMember_values_wf _ _ _ (parseVal_wf _ _ _ _ (by assumption))
                 (parseMembers_wf _ _ _ _ (by assumption)).2⟩
           | (refine ⟨by simp, ?_⟩
              intro kv hkv
              rcases List.mem_singleton.mp hkv with rfl
              exact parseVal_wf _ _ _ _ (by assumption)))

end

theorem json_loads_wf (s : String) (j : Json) (h : json_loads s = some j) : JsonWF j := by
  rw [json_loads] at h
  match heq : parseVal (s.data.length + 1) s.data with
  | none =>
    simp only [heq] at h
    cases h
  | some (j2, r) =>
    simp only [heq] at h
    by_cases hws : skipWs r = []
    · rw [if_pos hws] at h
      cases h
      exact parseVal_wf _ _ _ _ heq
    · rw [if_neg hws] at h
      cases h

/-! ## The projection preserves well-formedness and the ft member -/

theorem reduceRecord_wf {ms : List (String × Json)} (h : JsonWF (.obj ms)) :
    JsonWF (.obj (reduceRecord ms)) := by
  cases h with
  | obj _ hnd hv =>
    refine JsonWF.obj _ ?_ ?_
    · exact hnd.sublist ((List.filter_sublist ms).map Prod.fst)
    · intro kv hkv
      exact hv kv (List.mem_of_mem_filter hkv)

theorem lookupKey_of_mem_nodup {ms : List (String × Json)} {k : String} {v : Json}
    (hnd : (ms.map Prod.fst).Nodup) (hmem : (k, v) ∈ ms) : lookupKey ms k = some v := by
  induction ms with
  | nil => simp at hmem
  | cons kv2 ms2 ih =>
    obtain ⟨k2, v2⟩ := kv2
    simp only [List.map_cons, List.nodup_cons] at hnd
    rw [lookupKey]
    rcases List.mem_cons.mp hmem with hEq | h2
    · cases hEq
      rw [if_pos rfl]
    · by_cases hk : k2 = k
      · subst hk
        exact absurd (List.mem_map.mpr ⟨(k2, v), h2, rfl⟩) hnd.1
      · rw [if_neg hk]
        exact ih hnd.2 h2

theorem lookupKey_reduceRecord (ms : List (String × Json)) (key : String)
    (hk : keepKey key = true) :
    lookupKey (reduceRecord ms) key = lookupKey ms key := by
  induction ms with
  | nil => rfl
  | cons kv2 ms2 ih =>
    obtain ⟨k2, v2⟩ := kv2
    by_cases hEq : k2 = key
    · subst hEq
      rw [reduceRecord, List.filter_cons_of_pos (by simpa using hk), lookupKey, if_pos rfl,
        lookupKey, if_pos rfl]
    · by_cases hkeep : keepKey k2 = true
      · rw [reduceRecord, List.filter_cons_of_pos (by simpa using hkeep), lookupKey,
          if_neg hEq, lookupKey, if_neg hEq]
        exact ih
      · rw [reduceRecord, List.filter_cons_of_neg (by simpa using hkeep), lookupKey,
          if_neg hEq]
        exact ih

theorem keepKey_mem_allowList {k : String} (h : keepKey k = true) : k ∈ allowList := by
  rw [keepKey] at h
  simp only [Bool.or_eq_true, decide_eq_true_eq] at h
  simp only [allowList, List.mem_cons, List.mem_singleton]
  tauto

/-! ## The claims -/

/-- C1: for every decompressed text, read_jsonlines yields exactly the
non-empty lines of the text split on the newline character, in original
order, with nothing yielded for empty lines; in particular the text
consisting of two records around an empty line yields exactly those two
record lines. -/
theorem read_jsonlines_exact_nonempty_lines :
    (∀ text : String, read_jsonlines (.valid text) = (nonEmptyLines text, none))
    ∧ read_jsonlines (.valid "\x7b\"a\":1\x7d\n\n\x7b\"a\":2\x7d\n")
      = (["\x7b\"a\":1\x7d", "\x7b\"a\":2\x7d"], none) :=
  ⟨read_jsonlines_valid, rfl⟩

/-- C2 counterexample: on a text whose first line parses to an object with
no "ft" key, readtext_jsonlines raises KeyError and yields nothing, and the
well-formed subsequent record is never reached, contrary to the claim that
such a record is omitted silently with processing continuing. -/
theorem readtext_missing_ft_cex :
    readtext_jsonlines (.valid "\x7b\"id\":\"x\"\x7d\n\x7b\"id\":\"y\",\"ft\":\"hello\"\x7d\n")
      = ([], some .keyError) := rfl

/-- C2 amended: a non-empty line that parses to a JSON object with no "ft"
key makes readtext_jsonlines raise KeyError at that line: the generator
yields nothing for it and aborts instead of continuing. -/
theorem readtext_missing_ft_raises (line : String) (ms : List (String × Json))
    (rest : List String)
    (hp : json_loads line = some (.obj ms)) (hft : lookupKey ms "ft" = none)
    (hne : line ≠ "") :
    process_line line = .error .keyError
    ∧ readtext_jsonlines_gen (line :: rest) = ([], some .keyError) := by
  have hpl : process_line line = .error .keyError := by
    rw [process_line, hp]
    simp only [pySubscript, hft]
  refine ⟨hpl, ?_⟩
  rw [readtext_jsonlines_gen, if_pos hne, hpl]

/-- C2 amended, witness: the concrete line from the specification, with one
further record after it. -/
theorem readtext_missing_ft_raises_witness :
    json_loads "\x7b\"id\":\"x\"\x7d" = some (.obj [("id", .str "x")])
    ∧ lookupKey [("id", Json.str "x")] "ft" = none
    ∧ process_line "\x7b\"id\":\"x\"\x7d" = .error .keyError
    ∧ readtext_jsonlines_gen ["\x7b\"id\":\"x\"\x7d", "\x7b\"ft\":\"y\"\x7d"]
      = ([], some .keyError) :=
  ⟨rfl, rfl,
    (readtext_missing_ft_raises "\x7b\"id\":\"x\"\x7d" [("id", .str "x")]
      ["\x7b\"ft\":\"y\"\x7d"] rfl rfl (by decide)).1,
    (readtext_missing_ft_raises "\x7b\"id\":\"x\"\x7d" [("id", .str "x")]
      ["\x7b\"ft\":\"y\"\x7d"] rfl rfl (by decide)).2⟩

/-- C3 counterexample: two inputs, each with every non-empty line parsing to
a JSON object, on which the claimed bijection with the lines whose "ft" is a
non-empty string fails: a record with no "ft" key makes the generator raise
instead of yielding the empty projection, and a record whose "ft" is a
non-empty array is yielded even though its "ft" is not a string. -/
theorem readtext_projection_cex :
    nonEmptyLines "\x7b\"id\":\"x\"\x7d\n" = ["\x7b\"id\":\"x\"\x7d"]
    ∧ json_loads "\x7b\"id\":\"x\"\x7d" = some (Json.obj [("id", .str "x")])
    ∧ readtext_jsonlines (.valid "\x7b\"id\":\"x\"\x7d\n") = ([], some .keyError)
    ∧ nonEmptyLines "\x7b\"ft\":[1]\x7d\n" = ["\x7b\"ft\":[1]\x7d"]
    ∧ json_loads "\x7b\"ft\":[1]\x7d" = some (Json.obj [("ft", .arr [.num 1])])
    ∧ (readtext_jsonlines (.valid "\x7b\"ft\":[1]\x7d\n")).1.length = 1 :=
  ⟨rfl, rfl, rfl, rfl, rfl, rfl⟩

/-- C3 amended: for every text whose non-empty lines all parse to JSON
objects carrying a string under "ft", the projected sequence is exactly the
in-order image of the lines whose "ft" string is non-empty (each such line
yielding its serialized projection, every line with an empty "ft" yielding
nothing), and the projected output count never exceeds the count of lines
yielded by read_jsonlines. -/
theorem readtext_projection_refines (text : String)
    (h : ∀ line ∈ nonEmptyLines text, ∃ ms s, json_loads line = some (.obj ms)
          ∧ lookupKey ms "ft" = some (.str s)) :
    readtext_jsonlines (.valid text) = ((nonEmptyLines text).filterMap specProjectLine, none)
    ∧ (readtext_jsonlines (.valid text)).1.length ≤ (read_jsonlines (.valid text)).1.length := by
  have hmain : readtext_jsonlines (.valid text)
      = ((nonEmptyLines text).filterMap specProjectLine, none) := by
    rw [readtext_jsonlines_valid, processLines_spec _ h]
  refine ⟨hmain, ?_⟩
  rw [hmain, read_jsonlines_valid]
  exact List.length_filterMap_le _ _

/-- C3 amended, witness: one record with non-empty "ft" and one with empty
"ft"; exactly the first is yielded. -/
theorem readtext_projection_refines_witness :
    readtext_jsonlines (.valid "\x7b\"ft\":\"a\"\x7d\n\x7b\"ft\":\"\"\x7d\n")
      = ((nonEmptyLines "\x7b\"ft\":\"a\"\x7d\n\x7b\"ft\":\"\"\x7d\n").filterMap specProjectLine,
        none)
    ∧ (readtext_jsonlines (.valid "\x7b\"ft\":\"a\"\x7d\n\x7b\"ft\":\"\"\x7d\n")).1.length
      ≤ (read_jsonlines (.valid "\x7b\"ft\":\"a\"\x7d\n\x7b\"ft\":\"\"\x7d\n")).1.length :=
  readtext_projection_refines "\x7b\"ft\":\"a\"\x7d\n\x7b\"ft\":\"\"\x7d\n" (by
    intro line hl
    have hcases : line = "\x7b\"ft\":\"a\"\x7d" ∨ line = "\x7b\"ft\":\"\"\x7d" := by
      simpa [nonEmptyLines, pySplitLines, splitNl] using hl
    rcases hcases with rfl | rfl
    · exact ⟨[("ft", .str "a")], "a", rfl, rfl⟩
    · exact ⟨[("ft", .str "")], "", rfl, rfl⟩)

/-- C5: on the concrete two-record text of the specification,
read_jsonlines yields exactly the two record lines and readtext_jsonlines
yields exactly one string, which parses back to the projection of the first
record. -/
theorem end_to_end_example :
    read_jsonlines
        (.valid "\x7b\"id\":\"1\",\"ft\":\"hello world\",\"tp\":\"article\"\x7d\n\x7b\"id\":\"2\",\"ft\":\"\",\"tp\":\"ad\"\x7d\n")
      = (["\x7b\"id\":\"1\",\"ft\":\"hello world\",\"tp\":\"article\"\x7d",
          "\x7b\"id\":\"2\",\"ft\":\"\",\"tp\":\"ad\"\x7d"], none)
    ∧ readtext_jsonlines
        (.valid "\x7b\"id\":\"1\",\"ft\":\"hello world\",\"tp\":\"article\"\x7d\n\x7b\"id\":\"2\",\"ft\":\"\",\"tp\":\"ad\"\x7d\n")
      = (["\x7b\"id\": \"1\", \"ft\": \"hello world\", \"tp\": \"article\"\x7d"], none)
    ∧ json_loads "\x7b\"id\": \"1\", \"ft\": \"hello world\", \"tp\": \"article\"\x7d"
      = some (.obj [("id", .str "1"), ("ft", .str "hello world"), ("tp", .str "article")]) :=
  ⟨rfl, rfl, rfl⟩

/-- C6: when some non-empty line is not valid JSON and every earlier
non-empty line processes without raising, readtext_jsonlines yields exactly
the projections of the earlier lines and then raises the JSON decode error:
the malformed line is not skipped and nothing after it is yielded. -/
theorem readtext_fail_fast (text : String) (pre : List String) (bad : String)
    (rest : List String)
    (hsplit : nonEmptyLines text = pre ++ bad :: rest)
    (hpre : ∀ l ∈ pre, ∃ r, process_line l = .ok r)
    (hbad : json_loads bad = none) :
    readtext_jsonlines (.valid text) = (collectOk pre, some .jsonDecodeError) := by
  have hb : process_line bad = .error .jsonDecodeError := by rw [process_line, hbad]
  rw [readtext_jsonlines_valid, hsplit, processLines_append_ok _ _ hpre]
  simp [processLines, hb]

/-- C6 witness: a good record line, then a malformed line, then another good
record line; the first record's projection is yielded, then the error. -/
theorem readtext_fail_fast_witness :
    nonEmptyLines "\x7b\"ft\":\"a\"\x7d\nnotjson\n\x7b\"ft\":\"b\"\x7d\n"
      = ["\x7b\"ft\":\"a\"\x7d"] ++ "notjson" :: ["\x7b\"ft\":\"b\"\x7d"]
    ∧ json_loads "notjson" = none
    ∧ readtext_jsonlines (.valid "\x7b\"ft\":\"a\"\x7d\nnotjson\n\x7b\"ft\":\"b\"\x7d\n")
      = (collectOk ["\x7b\"ft\":\"a\"\x7d"], some .jsonDecodeError) :=
  ⟨rfl, rfl,
    readtext_fail_fast "\x7b\"ft\":\"a\"\x7d\nnotjson\n\x7b\"ft\":\"b\"\x7d\n"
      ["\x7b\"ft\":\"a\"\x7d"] "notjson" ["\x7b\"ft\":\"b\"\x7d"] rfl
      (by
        intro l hl
        have : l = "\x7b\"ft\":\"a\"\x7d" := by simpa using hl
        exact ⟨some "\x7b\"ft\": \"a\"\x7d", by rw [this]; rfl⟩)
      rfl⟩

/-- C7: on a retrieved blob that is not a valid compressed stream, both
generators raise the decompression error before yielding anything; the
result is never a silent empty sequence. -/
theorem extractors_decompression_error :
    read_jsonlines .notBz2 = ([], some .decompressionError)
    ∧ readtext_jsonlines .notBz2 = ([], some .decompressionError)
    ∧ (read_jsonlines .notBz2).2 ≠ none
    ∧ (readtext_jsonlines .notBz2).2 ≠ none :=
  ⟨rfl, rfl, by decide, by decide⟩

/-- C8: both extractors are deterministic functions of the retrieved
content: whenever two blobs decompress and decode to the same text, the two
runs yield identical sequences, serialized key order included. -/
theorem extractors_deterministic (b1 b2 : S3Blob)
    (h : decompressDecode b1 = decompressDecode b2) :
    read_jsonlines b1 = read_jsonlines b2
    ∧ readtext_jsonlines b1 = readtext_jsonlines b2 := by
  unfold read_jsonlines readtext_jsonlines
  rw [h]
  exact ⟨rfl, rfl⟩

/-- C8 witness: the two runs on one fixed blob agree. -/
theorem extractors_deterministic_witness :
    read_jsonlines (.valid "\x7b\"ft\":\"a\"\x7d\n")
        = read_jsonlines (.valid "\x7b\"ft\":\"a\"\x7d\n")
    ∧ readtext_jsonlines (.valid "\x7b\"ft\":\"a\"\x7d\n")
        = readtext_jsonlines (.valid "\x7b\"ft\":\"a\"\x7d\n") :=
  extractors_deterministic (.valid "\x7b\"ft\":\"a\"\x7d\n") (.valid "\x7b\"ft\":\"a\"\x7d\n") rfl

/-- C4: every string yielded by readtext_jsonlines parses back to a JSON
object that is the projection of some source record of the input: its keys
all lie in the fixed eight-key allow-list and each retained key holds
exactly the source record's value for that key. -/
theorem readtext_output_allowlisted (text out : String)
    (hmem : out ∈ (readtext_jsonlines (.valid text)).1) :
    ∃ line ms, line ∈ nonEmptyLines text ∧ json_loads line = some (.obj ms)
      ∧ json_loads out = some (.obj (reduceRecord ms))
      ∧ (∀ kv ∈ reduceRecord ms, kv.1 ∈ allowList)
      ∧ (∀ kv ∈ reduceRecord ms, lookupKey ms kv.1 = some kv.2) := by
  rw [readtext_jsonlines_valid] at hmem
  obtain ⟨line, hline, hok⟩ := mem_processLines _ _ hmem
  obtain ⟨ms, v, n, hp, hk, hn, hz, hout⟩ := process_line_ok_some hok
  have hwf : JsonWF (.obj ms) := json_loads_wf _ _ hp
  have hwfr := reduceRecord_wf hwf
  have hnd : (ms.map Prod.fst).Nodup := by
    cases hwf with
    | obj _ h1 _ => exact h1
  refine ⟨line, ms, hline, hp, ?_, ?_, ?_⟩
  · rw [hout]
    exact json_loads_dumps _ hwfr
  · intro kv hkv
    rw [reduceRecord] at hkv
    have hpk := List.of_mem_filter hkv
    exact keepKey_mem_allowList hpk
  · intro kv hkv
    rw [reduceRecord] at hkv
    obtain ⟨k0, v0⟩ := kv
    exact lookupKey_of_mem_nodup hnd (List.mem_of_mem_filter hkv)

/-- C4 witness: a record with one allow-listed and one dropped key. -/
theorem readtext_output_allowlisted_witness :
    ("\x7b\"ft\": \"a\"\x7d" : String)
        ∈ (readtext_jsonlines (.valid "\x7b\"ft\":\"a\",\"box\":[1,2]\x7d\n")).1
    ∧ ∃ line ms, line ∈ nonEmptyLines "\x7b\"ft\":\"a\",\"box\":[1,2]\x7d\n"
      ∧ json_loads line = some (.obj ms)
      ∧ json_loads "\x7b\"ft\": \"a\"\x7d" = some (.obj (reduceRecord ms))
      ∧ (∀ kv ∈ reduceRecord ms, kv.1 ∈ allowList)
      ∧ (∀ kv ∈ reduceRecord ms, lookupKey ms kv.1 = some kv.2) :=
  ⟨by decide,
    readtext_output_allowlisted "\x7b\"ft\":\"a\",\"box\":[1,2]\x7d\n" "\x7b\"ft\": \"a\"\x7d"
      (by decide)⟩

/-- C9: every string yielded by readtext_jsonlines parses to an object that
still contains the "ft" key it was filtered on, with a value of non-zero
Python length. -/
theorem readtext_output_retains_ft (text out : String)
    (hmem : out ∈ (readtext_jsonlines (.valid text)).1) :
    ∃ ms v n, json_loads out = some (.obj ms) ∧ lookupKey ms "ft" = some v
      ∧ pyLen v = .ok n ∧ n ≠ 0 := by
  rw [readtext_jsonlines_valid] at hmem
  obtain ⟨line, hline, hok⟩ := mem_processLines _ _ hmem
  obtain ⟨ms, v, n, hp, hk, hn, hz, hout⟩ := process_line_ok_some hok
  have hwf : JsonWF (.obj ms) := json_loads_wf _ _ hp
  have hwfr := reduceRecord_wf hwf
  refine ⟨reduceRecord ms, v, n, ?_, ?_, hn, hz⟩
  · rw [hout]
    exact json_loads_dumps _ hwfr
  · rw [lookupKey_reduceRecord ms "ft" (by decide)]
    exact hk

/-- C9 witness: the projection of a concrete record still carries ft. -/
theorem readtext_output_retains_ft_witness :
    ("\x7b\"id\": \"7\", \"ft\": \"hi\"\x7d" : String)
        ∈ (readtext_jsonlines (.valid "\x7b\"id\":\"7\",\"ft\":\"hi\"\x7d\n")).1
    ∧ ∃ ms v n, json_loads "\x7b\"id\": \"7\", \"ft\": \"hi\"\x7d" = some (.obj ms)
      ∧ lookupKey ms "ft" = some v ∧ pyLen v = .ok n ∧ n ≠ 0 :=
  ⟨by decide,
    readtext_output_retains_ft "\x7b\"id\":\"7\",\"ft\":\"hi\"\x7d\n"
      "\x7b\"id\": \"7\", \"ft\": \"hi\"\x7d" (by decide)⟩

/-- C10: every string yielded by read_jsonlines is non-empty and contains
no newline character. -/
theorem read_jsonlines_yields_newline_free (text line : String)
    (hmem : line ∈ (read_jsonlines (.valid text)).1) :
    line ≠ "" ∧ '\n' ∉ line.data := by
  rw [read_jsonlines_valid] at hmem
  simp only [nonEmptyLines, List.mem_filter] at hmem
  obtain ⟨hmem2, hne⟩ := hmem
  refine ⟨by simpa using hne, ?_⟩
  simp only [pySplitLines, List.mem_map] at hmem2
  obtain ⟨l, hl, rfl⟩ := hmem2
  exact mem_splitNl_no_newline text.data l hl

/-- C10 witness: a yielded line of a two-line text. -/
theorem read_jsonlines_yields_newline_free_witness :
    ("a" : String) ∈ (read_jsonlines (.valid "a\nb")).1
    ∧ ("a" : String) ≠ "" ∧ '\n' ∉ ("a" : String).data :=
  ⟨by decide, read_jsonlines_yields_newline_free "a\nb" "a" (by decide)⟩

end ImpressoS3
